import Mathlib

/-!
Verification of the melody-pattern rendering core of the Melody-Pattern-App
repository: the incremental event-windowing algorithm (`updateNoteOffsets`,
`updatePercussionOffsets` of `MelodyPatternRenderer`), the projection
formulas (`_calculateInwardViewOffset`, `_calculateOutwardViewOffset`,
`_calculateTheta`), the `Score` constructor's event normalisation and
sorting, and the `binarySearch` helper.

Times and durations are embedded as rationals (the JS code manipulates
them with ordinary arithmetic and comparisons only); the angle formula,
which multiplies by π, is embedded over the reals.  Events carry exactly
the fields the verified code paths read: start `time` and `duration`.
-/

namespace MelodyPattern

/-- An event of a stream (note or percussion hit), restricted to the
fields the windowing algorithm reads: start time and duration, in
seconds. -/
structure Event where
  time : ℚ
  duration : ℚ
  deriving DecidableEq, Repr

/-- The mutable cursor state attached to one event stream: the three
phase cursors `_noteOffsets.{released, attacked, appeared}` together with
the last observed time `_lastNoteTime` (respectively the percussion
counterparts). -/
structure OffsetState where
  released : Nat
  attacked : Nat
  appeared : Nat
  lastTime : ℚ
  deriving DecidableEq, Repr

/-- `resetNoteOffsets` / `resetPercussionOffsets`: all cursors to 0 and
the last observed time cleared to 0. -/
def resetOffsets : OffsetState :=
  { released := 0, attacked := 0, appeared := 0, lastTime := 0 }

/-- Helper for `advanceFrom`: scan the suffix `l` of the event list whose
first element sits at index `i`, returning the index of the first element
satisfying `p` (or the index one past the end of the suffix). -/
def scanFrom (p : Event → Bool) : List Event → Nat → Nat
  | [], i => i
  | e :: rest, i => if p e then i else scanFrom p rest (i + 1)

/-- The scan loop `for (; i < length; ++i) { if (p(events[i])) break }`:
the first index `j ≥ i` at which `p` holds, or `events.length` when no
such index exists (or `i` itself when `i` already exceeds the length). -/
def advanceFrom (events : List Event) (p : Event → Bool) (i : Nat) : Nat :=
  scanFrom p (events.drop i) i

/-- The common body of `updateNoteOffsets` and `updatePercussionOffsets`:
reset when the clock regressed, then push each cursor forward.  `relOf`
is the release threshold of an event: `event.time + event.duration` for
notes, `event.time + releasingTime` for percussion. -/
def updateOffsetsWith (events : List Event) (relOf : Event → ℚ)
    (s : OffsetState) (currentTime appearingTime : ℚ) : OffsetState :=
  let s := if currentTime < s.lastTime then resetOffsets else s
  let released := advanceFrom events (fun e => decide (currentTime < relOf e)) s.released
  let attacked := advanceFrom events (fun e => decide (currentTime < e.time))
    (max s.attacked released)
  let appeared := advanceFrom events (fun e => decide (currentTime < e.time + appearingTime))
    (max s.appeared attacked)
  { released := released, attacked := attacked, appeared := appeared, lastTime := currentTime }

/-- `MelodyPatternRenderer.updateNoteOffsets(currentTime, appearingTime)`
acting on the notes stream `events` and the note cursor state. -/
def updateNoteOffsets (events : List Event) (s : OffsetState)
    (currentTime appearingTime : ℚ) : OffsetState :=
  updateOffsetsWith events (fun e => e.time + e.duration) s currentTime appearingTime

/-- `MelodyPatternRenderer.updatePercussionOffsets(currentTime, appearingTime)`
acting on the percussion stream `events`, with the renderer's
`percussionReleasingTime` passed explicitly. -/
def updatePercussionOffsets (events : List Event) (releasingTime : ℚ)
    (s : OffsetState) (currentTime appearingTime : ℚ) : OffsetState :=
  updateOffsetsWith events (fun e => e.time + releasingTime) s currentTime appearingTime

/-- A sequence of `updateNoteOffsets` calls starting from the reset
state, one call per element of `ts`, with a fixed `appearingTime`. -/
def runNoteUpdates (events : List Event) (appearingTime : ℚ) (ts : List ℚ) : OffsetState :=
  ts.foldl (fun s t => updateNoteOffsets events s t appearingTime) resetOffsets

/-- A sequence of `updatePercussionOffsets` calls starting from the reset
state. -/
def runPercussionUpdates (events : List Event) (releasingTime appearingTime : ℚ)
    (ts : List ℚ) : OffsetState :=
  ts.foldl (fun s t => updatePercussionOffsets events releasingTime s t appearingTime) resetOffsets

/-- `_calculateInwardViewOffset(currentTime, time, duration)`:
`(time - currentTime) + 0.5 * duration`. -/
def calculateInwardViewOffset (currentTime time duration : ℚ) : ℚ :=
  (time - currentTime) + (1 / 2) * duration

/-- `_calculateOutwardViewOffset(currentTime, appearingTime, time, duration)`:
`-((time + appearingTime - currentTime) + 0.5 * duration)`. -/
def calculateOutwardViewOffset (currentTime appearingTime time duration : ℚ) : ℚ :=
  -((time + appearingTime - currentTime) + (1 / 2) * duration)

/-- `_calculateTheta(midi)`:
`2 * Math.PI * (midi + this._vocal.key - 72) * this.circleNumerator / this.circleDenominator`,
with the vocal's `key` and the two circle coefficients passed explicitly. -/
noncomputable def calculateTheta (key circleNumerator circleDenominator midi : ℝ) : ℝ :=
  2 * Real.pi * (midi + key - 72) * circleNumerator / circleDenominator

/-- The guard of the two note-rendering loops in `render`:
`offset = currentTime - note.time` must satisfy `offset < note.duration`
for a draw call to be issued for the note at index `i`. -/
def noteDrawGuard (events : List Event) (currentTime : ℚ) (i : Nat) : Bool :=
  match events[i]? with
  | some note => decide (currentTime - note.time < note.duration)
  | none => false

/-- The indices drawn by the appearing-phase note loop of `render`:
`noteIndex` runs from `offsets.attacked` to `offsets.appeared`
(exclusive), and a draw call is issued exactly when the guard holds. -/
def appearingNoteDrawIndices (events : List Event) (s : OffsetState) (currentTime : ℚ) :
    List Nat :=
  (List.range' s.attacked (s.appeared - s.attacked)).filter (noteDrawGuard events currentTime)

/-- The indices drawn by the sounding-phase note loop of `render`:
`noteIndex` runs from `offsets.released` to `offsets.attacked`
(exclusive), with the same guard. -/
def soundingNoteDrawIndices (events : List Event) (s : OffsetState) (currentTime : ℚ) :
    List Nat :=
  (List.range' s.released (s.attacked - s.released)).filter (noteDrawGuard events currentTime)

/-- `condAt events f c j` holds when index `j` is in range and the loop
break condition `c < f (events[j])` holds there. -/
def condAt (events : List Event) (f : Event → ℚ) (c : ℚ) (j : Nat) : Prop :=
  ∃ e, events[j]? = some e ∧ c < f e

/-- `IsLeastFrom length P start idx`: `idx` is the least index `≥ start`
satisfying `P`, or `length` when no index in `[start, length)` satisfies
`P`. -/
structure IsLeastFrom (length : Nat) (P : Nat → Prop) (start idx : Nat) : Prop where
  start_le : start ≤ idx
  le_length : idx ≤ length
  sat : idx < length → P idx
  min : ∀ j, start ≤ j → j < idx → ¬ P j

/-- The EventStream cursor invariant:
`0 ≤ released ≤ attacked ≤ appeared ≤ length`. -/
def CursorInvariant (events : List Event) (s : OffsetState) : Prop :=
  0 ≤ s.released ∧ s.released ≤ s.attacked ∧ s.attacked ≤ s.appeared ∧
    s.appeared ≤ events.length

/-- Pointwise order on the three cursors of two states. -/
def cursorsLe (s t : OffsetState) : Prop :=
  s.released ≤ t.released ∧ s.attacked ≤ t.attacked ∧ s.appeared ≤ t.appeared

/-- The full characterisation of a cursor state after a refresh at time
`c` with a fixed `appearingTime`: the last observed time is `c` and each
cursor is the least index (starting from the previous phase boundary) at
which the corresponding break condition holds. -/
def GoodState (events : List Event) (relOf : Event → ℚ) (appearingTime c : ℚ)
    (s : OffsetState) : Prop :=
  s.lastTime = c ∧
  IsLeastFrom events.length (condAt events relOf c) 0 s.released ∧
  IsLeastFrom events.length (condAt events (fun e => e.time) c) s.released s.attacked ∧
  IsLeastFrom events.length (condAt events (fun e => e.time + appearingTime) c)
    s.attacked s.appeared

/-- Sortedness of a stream as the spec states it: ascending by `time`,
ties broken by descending `duration`. -/
def EventSorted (events : List Event) : Prop :=
  events.Pairwise (fun a b => a.time < b.time ∨ (a.time = b.time ∧ b.duration ≤ a.duration))

/-- The JS comparator
`(a, b) => (a.time === b.time) ? (b.duration - a.duration) : (a.time - b.time)`
read as a boolean "a may precede b" relation: the comparator is `≤ 0`. -/
def eventLe (a b : Event) : Bool :=
  if a.time = b.time then decide (b.duration ≤ a.duration) else decide (a.time < b.time)

/-- The slice of a parsed MIDI track the `Score` constructor reads: the
instrument's percussion flag and the track's note events. -/
structure MidiTrack where
  percussion : Bool
  notes : List Event
  deriving DecidableEq, Repr

/-- The per-track normalisation inside the `Score` constructor: tracks of
percussion instruments get every note's duration overwritten to `0.1`
(this happens before the streams are sorted). -/
def normalizeTrack (t : MidiTrack) : MidiTrack :=
  if t.percussion then { t with notes := t.notes.map (fun n => { n with duration := 1 / 10 }) }
  else t

/-- The two event streams a `Score` exposes. -/
structure Score where
  notes : List Event
  percussions : List Event
  deriving DecidableEq, Repr

/-- The stream-building part of the `Score` constructor: normalise each
track, split note tracks from percussion tracks, concatenate each group's
events, and sort both streams with the `eventLe` comparator. -/
def makeScore (tracks : List MidiTrack) : Score :=
  let tracks := tracks.map normalizeTrack
  { notes :=
      ((tracks.filter (fun t => !t.percussion)).flatMap MidiTrack.notes).mergeSort eventLe
    percussions :=
      ((tracks.filter (fun t => t.percussion)).flatMap MidiTrack.notes).mergeSort eventLe }

/-- The loop of `binarySearch`:
`while (1 < gt - le) { mid = le + floor((gt - le) / 2); if (key(array[mid]) <= value) le = mid; else gt = mid; } return le`. -/
def binarySearchLoop {α : Type} (array : List α) (dflt : α) (value : ℚ) (key : α → ℚ)
    (le gt : Nat) : Nat :=
  if 1 < gt - le then
    if key (array.getD (le + (gt - le) / 2) dflt) ≤ value then
      binarySearchLoop array dflt value key (le + (gt - le) / 2) gt
    else binarySearchLoop array dflt value key le (le + (gt - le) / 2)
  else le
termination_by gt - le
decreasing_by all_goals omega

/-- `binarySearch(array, value, key)` from `modules/binarySearch.js`:
`le = 0; gt = array.length;` then the loop above.  `dflt` stands in for
the out-of-bounds JS array read, which the loop never performs. -/
def binarySearch {α : Type} (array : List α) (dflt : α) (value : ℚ) (key : α → ℚ) : Nat :=
  binarySearchLoop array dflt value key 0 array.length

/-! ### Properties of the scan loop -/

theorem scanFrom_ge (p : Event → Bool) : ∀ (l : List Event) (i : Nat), i ≤ scanFrom p l i
  | [], i => Nat.le_refl i
  | e :: rest, i => by
    simp only [scanFrom]
    split
    · exact Nat.le_refl i
    · exact Nat.le_trans (Nat.le_succ i) (scanFrom_ge p rest (i + 1))

/-- The scan loop unfolds one index at a time. -/
theorem advanceFrom_eq (events : List Event) (p : Event → Bool) (i : Nat) :
    advanceFrom events p i =
      if h : i < events.length then
        if p events[i] then i else advanceFrom events p (i + 1)
      else i := by
  by_cases h : i < events.length
  · rw [advanceFrom, List.drop_eq_getElem_cons h, dif_pos h]
    rfl
  · rw [advanceFrom, List.drop_eq_nil_of_le (Nat.le_of_not_lt h), dif_neg h]
    rfl

theorem advanceFrom_ge (events : List Event) (p : Event → Bool) (i : Nat) :
    i ≤ advanceFrom events p i :=
  scanFrom_ge p (events.drop i) i

theorem advanceFrom_of_length_le (events : List Event) (p : Event → Bool) (i : Nat)
    (h : events.length ≤ i) : advanceFrom events p i = i := by
  rw [advanceFrom_eq, dif_neg (Nat.not_lt.mpr h)]

theorem advanceFrom_le_length (events : List Event) (p : Event → Bool) (i : Nat)
    (h : i ≤ events.length) : advanceFrom events p i ≤ events.length := by
  rw [advanceFrom_eq]
  split
  · split
    · omega
    · exact advanceFrom_le_length events p (i + 1) (by omega)
  · omega
termination_by events.length - i

/-- The index the scan stops at satisfies the break condition. -/
theorem advanceFrom_sat (events : List Event) (p : Event → Bool) (i : Nat)
    (h : advanceFrom events p i < events.length) :
    ∃ e, events[advanceFrom events p i]? = some e ∧ p e = true := by
  by_cases hi : i < events.length
  · by_cases hp : p events[i] = true
    · rw [advanceFrom_eq, dif_pos hi, if_pos hp] at h ⊢
      exact ⟨events[i], List.getElem?_eq_getElem hi, hp⟩
    · rw [advanceFrom_eq, dif_pos hi, if_neg hp] at h ⊢
      exact advanceFrom_sat events p (i + 1) h
  · rw [advanceFrom_eq, dif_neg hi] at h
    omega
termination_by events.length - i

/-- Every index the scan skipped fails the break condition. -/
theorem advanceFrom_not_sat (events : List Event) (p : Event → Bool) (i j : Nat)
    (hij : i ≤ j) (hj : j < advanceFrom events p i) :
    ∀ e, events[j]? = some e → p e = false := by
  by_cases hi : i < events.length
  · by_cases hp : p events[i] = true
    · rw [advanceFrom_eq, dif_pos hi, if_pos hp] at hj
      omega
    · rw [advanceFrom_eq, dif_pos hi, if_neg hp] at hj
      rcases Nat.eq_or_lt_of_le hij with rfl | hlt
      · intro e he
        rw [List.getElem?_eq_getElem hi] at he
        cases he
        exact Bool.not_eq_true _ ▸ eq_false_of_ne_true hp
      · exact advanceFrom_not_sat events p (i + 1) j hlt hj
  · rw [advanceFrom_eq, dif_neg hi] at hj
    omega
termination_by events.length - i

/-- Rescanning from a scan result does not move it. -/
theorem advanceFrom_idem (events : List Event) (p : Event → Bool) (i : Nat) :
    advanceFrom events p (advanceFrom events p i) = advanceFrom events p i := by
  by_cases h : advanceFrom events p i < events.length
  · obtain ⟨e, he, hpe⟩ := advanceFrom_sat events p i h
    rw [List.getElem?_eq_getElem h] at he
    cases he
    rw [advanceFrom_eq, dif_pos h, if_pos hpe]
  · exact advanceFrom_of_length_le events p _ (Nat.le_of_not_lt h)

/-- The scan from `start` computes the least index characterisation of
the break condition. -/
theorem advanceFrom_isLeastFrom (events : List Event) (f : Event → ℚ) (c : ℚ) (start : Nat)
    (hs : start ≤ events.length) :
    IsLeastFrom events.length (condAt events f c) start
      (advanceFrom events (fun e => decide (c < f e)) start) := by
  refine ⟨advanceFrom_ge events _ start, advanceFrom_le_length events _ start hs, ?_, ?_⟩
  · intro hlt
    obtain ⟨e, he, hpe⟩ := advanceFrom_sat events _ start hlt
    exact ⟨e, he, of_decide_eq_true hpe⟩
  · rintro j h1 h2 ⟨e, he, hce⟩
    have := advanceFrom_not_sat events _ start j h1 h2 e he
    simp only [decide_eq_false_iff_not] at this
    exact this hce

/-- Extending the least-index characterisation down over a prefix known
to fail the condition. -/
theorem isLeastFrom_extend {length : Nat} {P : Nat → Prop} {base start idx : Nat}
    (hbase : base ≤ start) (hfail : ∀ j, base ≤ j → j < start → ¬ P j)
    (h : IsLeastFrom length P start idx) : IsLeastFrom length P base idx := by
  refine ⟨Nat.le_trans hbase h.start_le, h.le_length, h.sat, ?_⟩
  intro j hj hjidx
  by_cases hjs : j < start
  · exact hfail j hj hjs
  · exact h.min j (Nat.le_of_not_lt hjs) hjidx

/-- The break conditions weaken as the current time grows: an index that
failed at time `c₀` still fails at any later time `c`. -/
theorem condAt_mono {events : List Event} {f : Event → ℚ} {c₀ c : ℚ} (hc : c₀ ≤ c)
    {j : Nat} (h : ¬ condAt events f c₀ j) : ¬ condAt events f c j := by
  rintro ⟨e, he, hce⟩
  exact h ⟨e, he, lt_of_le_of_lt hc hce⟩

/-! ### The refresh step characterised -/

/-- A refresh from the reset state scans every cursor from 0 (whether or
not the clock-regression branch fires, the state it scans from is the
reset state). -/
theorem updateOffsetsWith_reset_eq (events : List Event) (relOf : Event → ℚ) (c a : ℚ) :
    updateOffsetsWith events relOf resetOffsets c a =
      { released := advanceFrom events (fun e => decide (c < relOf e)) 0
        attacked := advanceFrom events (fun e => decide (c < e.time))
          (advanceFrom events (fun e => decide (c < relOf e)) 0)
        appeared := advanceFrom events (fun e => decide (c < e.time + a))
          (advanceFrom events (fun e => decide (c < e.time))
            (advanceFrom events (fun e => decide (c < relOf e)) 0))
        lastTime := c } := by
  simp [updateOffsetsWith, resetOffsets, ite_self]

/-- A refresh whose current time has not regressed keeps the previous
cursors and pushes each forward. -/
theorem updateOffsetsWith_no_reset_eq (events : List Event) (relOf : Event → ℚ)
    (s : OffsetState) (c a : ℚ) (h : ¬ c < s.lastTime) :
    updateOffsetsWith events relOf s c a =
      { released := advanceFrom events (fun e => decide (c < relOf e)) s.released
        attacked := advanceFrom events (fun e => decide (c < e.time))
          (max s.attacked (advanceFrom events (fun e => decide (c < relOf e)) s.released))
        appeared := advanceFrom events (fun e => decide (c < e.time + a))
          (max s.appeared (advanceFrom events (fun e => decide (c < e.time))
            (max s.attacked (advanceFrom events (fun e => decide (c < relOf e)) s.released))))
        lastTime := c } := by
  simp only [updateOffsetsWith, if_neg h]

/-- The first refresh after a reset produces the least-index
characterisation of every cursor. -/
theorem goodState_first (events : List Event) (relOf : Event → ℚ) (a c : ℚ) :
    GoodState events relOf a c (updateOffsetsWith events relOf resetOffsets c a) := by
  rw [updateOffsetsWith_reset_eq]
  refine ⟨rfl, ?_, ?_, ?_⟩
  · exact advanceFrom_isLeastFrom events relOf c 0 (Nat.zero_le _)
  · exact advanceFrom_isLeastFrom events (fun e => e.time) c _
      (advanceFrom_le_length events _ 0 (Nat.zero_le _))
  · exact advanceFrom_isLeastFrom events (fun e => e.time + a) c _
      (advanceFrom_le_length events _ _ (advanceFrom_le_length events _ 0 (Nat.zero_le _)))

/-- A refresh at a time `c` no earlier than the previously observed time
preserves the least-index characterisation. -/
theorem goodState_update (events : List Event) (relOf : Event → ℚ) {a c₀ c : ℚ}
    {s : OffsetState} (hs : GoodState events relOf a c₀ s) (hc : c₀ ≤ c) :
    GoodState events relOf a c (updateOffsetsWith events relOf s c a) := by
  obtain ⟨hlast, hrel, hatt, happ⟩ := hs
  have hnr : ¬ c < s.lastTime := by rw [hlast]; exact not_lt.mpr hc
  rw [updateOffsetsWith_no_reset_eq events relOf s c a hnr]
  set r := advanceFrom events (fun e => decide (c < relOf e)) s.released with hr
  set b := advanceFrom events (fun e => decide (c < e.time)) (max s.attacked r) with hb
  have hrlen : r ≤ events.length := advanceFrom_le_length events _ s.released hrel.le_length
  have hmaxatt : max s.attacked r ≤ events.length := Nat.max_le.mpr ⟨hatt.le_length, hrlen⟩
  have hblen : b ≤ events.length := advanceFrom_le_length events _ _ hmaxatt
  have hmaxapp : max s.appeared b ≤ events.length := Nat.max_le.mpr ⟨happ.le_length, hblen⟩
  refine ⟨rfl, ?_, ?_, ?_⟩ <;> dsimp only
  · exact isLeastFrom_extend (Nat.zero_le _)
      (fun j h1 h2 => condAt_mono hc (hrel.min j h1 h2))
      (advanceFrom_isLeastFrom events relOf c s.released hrel.le_length)
  · refine isLeastFrom_extend (Nat.le_max_right s.attacked r) ?_
      (advanceFrom_isLeastFrom events (fun e => e.time) c _ hmaxatt)
    intro j h1 h2
    have hj : j < s.attacked := by
      rcases Nat.le_total s.attacked r with hm | hm
      · rw [Nat.max_eq_right hm] at h2; omega
      · rwa [Nat.max_eq_left hm] at h2
    exact condAt_mono hc (hatt.min j (Nat.le_trans (advanceFrom_ge events _ _) h1) hj)
  · refine isLeastFrom_extend (Nat.le_max_right s.appeared b) ?_
      (advanceFrom_isLeastFrom events (fun e => e.time + a) c _ hmaxapp)
    intro j h1 h2
    have hj : j < s.appeared := by
      rcases Nat.le_total s.appeared b with hm | hm
      · rw [Nat.max_eq_right hm] at h2; omega
      · rwa [Nat.max_eq_left hm] at h2
    have hbprev : s.attacked ≤ b :=
      Nat.le_trans (Nat.le_max_left _ _) (advanceFrom_ge events _ _)
    exact condAt_mono hc (happ.min j (Nat.le_trans hbprev h1) hj)

/-- A non-decreasing sequence of refreshes starting from the reset state
ends in a state characterised by its last current time. -/
theorem goodState_foldl (events : List Event) (relOf : Event → ℚ) (a : ℚ) (ts : List ℚ)
    (c : ℚ) (hts : ts.Chain' (· ≤ ·)) (hlast : ts.getLast? = some c) :
    GoodState events relOf a c
      (ts.foldl (fun s t => updateOffsetsWith events relOf s t a) resetOffsets) := by
  induction ts using List.reverseRecOn generalizing c with
  | nil => simp at hlast
  | append_singleton ts t ih =>
    rw [List.foldl_append]
    have hc : t = c := by
      rw [List.getLast?_concat] at hlast
      exact Option.some.inj hlast
    subst hc
    rcases eq_or_ne ts [] with rfl | hne
    · simp only [List.foldl_nil]
      exact goodState_first events relOf a t
    · have hchain := List.chain'_append.mp hts
      obtain ⟨c₀, hc₀⟩ := Option.isSome_iff_exists.mp (List.getLast?_isSome.mpr hne)
      have hc₀t : c₀ ≤ t :=
        hchain.2.2 c₀ (Option.mem_def.mpr hc₀) t (Option.mem_def.mpr rfl)
      exact goodState_update events relOf (ih c₀ hchain.1 hc₀) hc₀t

/-! ### Cursor invariant and monotonicity -/

theorem updateOffsetsWith_lastTime (events : List Event) (relOf : Event → ℚ)
    (s : OffsetState) (c a : ℚ) : (updateOffsetsWith events relOf s c a).lastTime = c := rfl

/-- One refresh preserves the EventStream cursor invariant. -/
theorem cursorInvariant_update (events : List Event) (relOf : Event → ℚ)
    (s : OffsetState) (c a : ℚ) (hs : CursorInvariant events s) :
    CursorInvariant events (updateOffsetsWith events relOf s c a) := by
  obtain ⟨-, h12, h23, h3⟩ := hs
  by_cases h : c < s.lastTime
  · have heq : updateOffsetsWith events relOf s c a =
        updateOffsetsWith events relOf resetOffsets c a := by
      simp only [updateOffsetsWith, if_pos h, ite_self]
    rw [heq, updateOffsetsWith_reset_eq]
    refine ⟨Nat.zero_le _, ?_, ?_, ?_⟩ <;> dsimp only
    · exact advanceFrom_ge events _ _
    · exact advanceFrom_ge events _ _
    · exact advanceFrom_le_length events _ _ (advanceFrom_le_length events _ _
        (advanceFrom_le_length events _ 0 (Nat.zero_le _)))
  · rw [updateOffsetsWith_no_reset_eq events relOf s c a h]
    refine ⟨Nat.zero_le _, ?_, ?_, ?_⟩ <;> dsimp only
    · exact Nat.le_trans (Nat.le_max_right _ _) (advanceFrom_ge events _ _)
    · exact Nat.le_trans (Nat.le_max_right _ _) (advanceFrom_ge events _ _)
    · refine advanceFrom_le_length events _ _ (Nat.max_le.mpr ⟨h3, ?_⟩)
      refine advanceFrom_le_length events _ _ (Nat.max_le.mpr ⟨Nat.le_trans h23 h3, ?_⟩)
      exact advanceFrom_le_length events _ _ (Nat.le_trans h12 (Nat.le_trans h23 h3))

/-- The invariant holds after any sequence of refreshes from reset. -/
theorem cursorInvariant_foldl (events : List Event) (relOf : Event → ℚ) (a : ℚ)
    (ts : List ℚ) :
    CursorInvariant events
      (ts.foldl (fun s t => updateOffsetsWith events relOf s t a) resetOffsets) := by
  suffices key : ∀ s, CursorInvariant events s →
      CursorInvariant events (ts.foldl (fun s t => updateOffsetsWith events relOf s t a) s) by
    exact key resetOffsets ⟨Nat.le_refl 0, Nat.le_refl 0, Nat.le_refl 0, Nat.zero_le _⟩
  induction ts with
  | nil => exact fun s hs => hs
  | cons t ts ih => exact fun s hs => ih _ (cursorInvariant_update events relOf s t a hs)

/-- A refresh at a non-regressed time never moves a cursor backwards. -/
theorem cursorsLe_update (events : List Event) (relOf : Event → ℚ) (s : OffsetState)
    (c a : ℚ) (h : s.lastTime ≤ c) :
    cursorsLe s (updateOffsetsWith events relOf s c a) := by
  rw [updateOffsetsWith_no_reset_eq events relOf s c a (not_lt.mpr h)]
  refine ⟨?_, ?_, ?_⟩ <;> dsimp only
  · exact advanceFrom_ge events _ _
  · exact Nat.le_trans (Nat.le_max_left _ _) (advanceFrom_ge events _ _)
  · exact Nat.le_trans (Nat.le_max_left _ _) (advanceFrom_ge events _ _)

/-- After a refresh sequence the stored last-observed time is the last
current time of the sequence. -/
theorem lastTime_foldl (events : List Event) (relOf : Event → ℚ) (a : ℚ) (ts : List ℚ)
    (c : ℚ) (h : ts.getLast? = some c) (s : OffsetState) :
    (ts.foldl (fun s t => updateOffsetsWith events relOf s t a) s).lastTime = c := by
  induction ts generalizing s with
  | nil => simp at h
  | cons t ts ih =>
    cases ts with
    | nil =>
      have ht : t = c := by simpa using h
      simp only [List.foldl_cons, List.foldl_nil]
      rw [← ht]
      rfl
    | cons t2 ts2 =>
      rw [List.foldl_cons]
      exact ih (by rwa [List.getLast?_cons_cons] at h) _

/-- Appending one further non-decreasing refresh moves every cursor
forwards (or keeps it). -/
theorem cursorsLe_foldl_concat (events : List Event) (relOf : Event → ℚ) (a : ℚ)
    (ts : List ℚ) (t : ℚ) (h : (ts ++ [t]).Chain' (· ≤ ·)) :
    cursorsLe (ts.foldl (fun s u => updateOffsetsWith events relOf s u a) resetOffsets)
      ((ts ++ [t]).foldl (fun s u => updateOffsetsWith events relOf s u a) resetOffsets) := by
  rw [List.foldl_append, List.foldl_cons, List.foldl_nil]
  rcases eq_or_ne ts [] with rfl | hne
  · exact ⟨Nat.zero_le _, Nat.zero_le _, Nat.zero_le _⟩
  · obtain ⟨c₀, hc₀⟩ := Option.isSome_iff_exists.mp (List.getLast?_isSome.mpr hne)
    have hchain := List.chain'_append.mp h
    have hc₀t : c₀ ≤ t := hchain.2.2 c₀ (Option.mem_def.mpr hc₀) t (Option.mem_def.mpr rfl)
    refine cursorsLe_update events relOf _ t a ?_
    rw [lastTime_foldl events relOf a ts c₀ hc₀ resetOffsets]
    exact hc₀t

/-! ### Idempotence of the refresh -/

/-- A state whose last time is `c` and whose cursors are fixpoints of
their scans is left unchanged by a refresh at `c`. -/
theorem updateOffsetsWith_fix (events : List Event) (relOf : Event → ℚ) (c a : ℚ)
    (s : OffsetState) (hlast : s.lastTime = c)
    (hrel : advanceFrom events (fun e => decide (c < relOf e)) s.released = s.released)
    (hatt : advanceFrom events (fun e => decide (c < e.time)) s.attacked = s.attacked)
    (happ : advanceFrom events (fun e => decide (c < e.time + a)) s.appeared = s.appeared)
    (h1 : s.released ≤ s.attacked) (h2 : s.attacked ≤ s.appeared) :
    updateOffsetsWith events relOf s c a = s := by
  obtain ⟨r, b, d, lt⟩ := s
  dsimp only at hlast hrel hatt happ h1 h2
  rw [updateOffsetsWith_no_reset_eq events relOf ⟨r, b, d, lt⟩ c a
    (by dsimp only; rw [hlast]; exact lt_irrefl c)]
  dsimp only
  rw [hrel, Nat.max_eq_left h1, hatt, Nat.max_eq_left h2, happ, hlast]

/-- Refreshing twice at the same time and appearing lead equals
refreshing once. -/
theorem updateOffsetsWith_idem (events : List Event) (relOf : Event → ℚ)
    (s : OffsetState) (c a : ℚ) :
    updateOffsetsWith events relOf (updateOffsetsWith events relOf s c a) c a =
      updateOffsetsWith events relOf s c a := by
  refine updateOffsetsWith_fix events relOf c a _ rfl ?_ ?_ ?_ ?_ ?_
  · exact advanceFrom_idem events _ _
  · exact advanceFrom_idem events _ _
  · exact advanceFrom_idem events _ _
  · exact Nat.le_trans (Nat.le_max_right _ _) (advanceFrom_ge events _ _)
  · exact Nat.le_trans (Nat.le_max_right _ _) (advanceFrom_ge events _ _)

/-! ### Claim theorems -/

/-- C1: for every event stream sorted ascending by time (ties by
descending duration), every fixed appearing lead, and every non-empty
non-decreasing sequence of current times fed to `updateNoteOffsets` from
the reset state, after the last call `released` is the least index whose
release condition `currentTime < time + duration` holds (or the length),
`attacked` is the least index `≥ released` with `currentTime < time`, and
`appeared` is the least index `≥ attacked` with
`currentTime < time + appearingTime`; all comparisons strict. -/
theorem runNoteUpdates_cursors_least (events : List Event) (appearingTime : ℚ)
    (ts : List ℚ) (c : ℚ) (hsorted : EventSorted events)
    (hmono : ts.Chain' (· ≤ ·)) (hlast : ts.getLast? = some c) :
    IsLeastFrom events.length (condAt events (fun e => e.time + e.duration) c) 0
      (runNoteUpdates events appearingTime ts).released ∧
    IsLeastFrom events.length (condAt events (fun e => e.time) c)
      (runNoteUpdates events appearingTime ts).released
      (runNoteUpdates events appearingTime ts).attacked ∧
    IsLeastFrom events.length (condAt events (fun e => e.time + appearingTime) c)
      (runNoteUpdates events appearingTime ts).attacked
      (runNoteUpdates events appearingTime ts).appeared := by
  have h := goodState_foldl events (fun e => e.time + e.duration) appearingTime ts c hmono hlast
  exact ⟨h.2.1, h.2.2.1, h.2.2.2⟩

/-- Witness for C1 at a concrete sorted stream and call sequence. -/
theorem runNoteUpdates_cursors_least_witness :
    IsLeastFrom ([⟨0, 1⟩, ⟨2, 1⟩] : List Event).length
      (condAt [⟨0, 1⟩, ⟨2, 1⟩] (fun e => e.time + e.duration) 2) 0
      (runNoteUpdates [⟨0, 1⟩, ⟨2, 1⟩] (-1) [1, 2]).released ∧
    IsLeastFrom ([⟨0, 1⟩, ⟨2, 1⟩] : List Event).length
      (condAt [⟨0, 1⟩, ⟨2, 1⟩] (fun e => e.time) 2)
      (runNoteUpdates [⟨0, 1⟩, ⟨2, 1⟩] (-1) [1, 2]).released
      (runNoteUpdates [⟨0, 1⟩, ⟨2, 1⟩] (-1) [1, 2]).attacked ∧
    IsLeastFrom ([⟨0, 1⟩, ⟨2, 1⟩] : List Event).length
      (condAt [⟨0, 1⟩, ⟨2, 1⟩] (fun e => e.time + (-1)) 2)
      (runNoteUpdates [⟨0, 1⟩, ⟨2, 1⟩] (-1) [1, 2]).attacked
      (runNoteUpdates [⟨0, 1⟩, ⟨2, 1⟩] (-1) [1, 2]).appeared :=
  runNoteUpdates_cursors_least [⟨0, 1⟩, ⟨2, 1⟩] (-1) [1, 2] 2
    (by unfold EventSorted; decide)
    (by norm_num [List.chain'_cons, List.chain'_singleton]) (by decide)

/-- C2: for every event stream and every call sequence from reset, the
invariant `0 ≤ released ≤ attacked ≤ appeared ≤ length` holds after
every call of `updateNoteOffsets` and of `updatePercussionOffsets`; and
when the current times are non-decreasing, each cursor is individually
non-decreasing from one call to the next. -/
theorem cursor_invariant_monotone :
    (∀ (events : List Event) (appearingTime : ℚ) (ts : List ℚ),
        CursorInvariant events (runNoteUpdates events appearingTime ts)) ∧
    (∀ (events : List Event) (releasingTime appearingTime : ℚ) (ts : List ℚ),
        CursorInvariant events (runPercussionUpdates events releasingTime appearingTime ts)) ∧
    (∀ (events : List Event) (appearingTime : ℚ) (ts : List ℚ) (t : ℚ),
        (ts ++ [t]).Chain' (· ≤ ·) →
        cursorsLe (runNoteUpdates events appearingTime ts)
          (runNoteUpdates events appearingTime (ts ++ [t]))) ∧
    (∀ (events : List Event) (releasingTime appearingTime : ℚ) (ts : List ℚ) (t : ℚ),
        (ts ++ [t]).Chain' (· ≤ ·) →
        cursorsLe (runPercussionUpdates events releasingTime appearingTime ts)
          (runPercussionUpdates events releasingTime appearingTime (ts ++ [t]))) := by
  refine ⟨?_, ?_, ?_, ?_⟩
  · exact fun events a ts => cursorInvariant_foldl events (fun e => e.time + e.duration) a ts
  · exact fun events r a ts => cursorInvariant_foldl events (fun e => e.time + r) a ts
  · exact fun events a ts t h =>
      cursorsLe_foldl_concat events (fun e => e.time + e.duration) a ts t h
  · exact fun events r a ts t h =>
      cursorsLe_foldl_concat events (fun e => e.time + r) a ts t h

/-- Witness for C2's monotonicity part at a concrete sequence. -/
theorem cursor_invariant_monotone_witness :
    cursorsLe (runNoteUpdates [⟨0, 1⟩] 0 [1]) (runNoteUpdates [⟨0, 1⟩] 0 ([1] ++ [2])) ∧
    cursorsLe (runPercussionUpdates [⟨0, 1⟩] (1 / 16) 0 [1])
      (runPercussionUpdates [⟨0, 1⟩] (1 / 16) 0 ([1] ++ [2])) :=
  ⟨cursor_invariant_monotone.2.2.1 [⟨0, 1⟩] 0 [1] 2
      (by norm_num [List.chain'_cons, List.chain'_singleton]),
   cursor_invariant_monotone.2.2.2 [⟨0, 1⟩] (1 / 16) 0 [1] 2
      (by norm_num [List.chain'_cons, List.chain'_singleton])⟩

/-- C3: when the current time regresses below the stored last-observed
time, `updateNoteOffsets` first resets all three cursors and the
last-observed time, so the resulting state is exactly the state a fresh
(reset) tracker produces from the same stream, appearing lead, and the
single new current time. -/
theorem updateNoteOffsets_regression_resets (events : List Event) (s : OffsetState)
    (currentTime appearingTime : ℚ) (h : currentTime < s.lastTime) :
    updateNoteOffsets events s currentTime appearingTime =
      updateNoteOffsets events resetOffsets currentTime appearingTime := by
  simp only [updateNoteOffsets, updateOffsetsWith, if_pos h, ite_self]

/-- Witness for C3 at a concrete regressed clock. -/
theorem updateNoteOffsets_regression_resets_witness :
    updateNoteOffsets [⟨0, 1⟩] ⟨1, 1, 1, 10⟩ 5 0 =
      updateNoteOffsets [⟨0, 1⟩] resetOffsets 5 0 :=
  updateNoteOffsets_regression_resets [⟨0, 1⟩] ⟨1, 1, 1, 10⟩ 5 0 (by decide)

/-- C4: on the stream `[{time 0, duration 1}, {time 1, duration 1/2},
{time 1, duration 2}]`, a single `updateNoteOffsets` call from reset at
current time 1 yields `released = 1` (the first event has finished since
`0 + 1 ≤ 1`) and `attacked = 3` (the scan only stops at the first index
with `time` strictly greater than the current time, and both tied events
have `time = 1`). -/
theorem updateNoteOffsets_tie_example (appearingTime : ℚ) :
    (updateNoteOffsets [⟨0, 1⟩, ⟨1, 1 / 2⟩, ⟨1, 2⟩] resetOffsets 1 appearingTime).released = 1 ∧
    (updateNoteOffsets [⟨0, 1⟩, ⟨1, 1 / 2⟩, ⟨1, 2⟩] resetOffsets 1 appearingTime).attacked = 3 := by
  refine ⟨?_, ?_⟩ <;>
    simp [updateNoteOffsets, updateOffsetsWith, advanceFrom, scanFrom, resetOffsets]

/-- C5: refreshing is idempotent: a second `updateNoteOffsets`
(respectively `updatePercussionOffsets`) call with the same current time
and appearing lead leaves the state of the first call unchanged, from any
starting state. -/
theorem update_offsets_idempotent :
    (∀ (events : List Event) (s : OffsetState) (currentTime appearingTime : ℚ),
        updateNoteOffsets events (updateNoteOffsets events s currentTime appearingTime)
            currentTime appearingTime =
          updateNoteOffsets events s currentTime appearingTime) ∧
    (∀ (events : List Event) (releasingTime : ℚ) (s : OffsetState)
        (currentTime appearingTime : ℚ),
        updatePercussionOffsets events releasingTime
            (updatePercussionOffsets events releasingTime s currentTime appearingTime)
            currentTime appearingTime =
          updatePercussionOffsets events releasingTime s currentTime appearingTime) :=
  ⟨fun events s c a => updateOffsetsWith_idem events (fun e => e.time + e.duration) s c a,
   fun events r s c a => updateOffsetsWith_idem events (fun e => e.time + r) s c a⟩

/-- C6: the angle of a pitch is
`2π · (pitch + key − 72) · circleNumerator / circleDenominator`; with
numerator 1, denominator 12 and key 0, pitch 72 maps to angle 0 and
pitch 84 (one octave up) maps to 2π, the same angle modulo 2π. -/
theorem calculateTheta_octave :
    (∀ key circleNumerator circleDenominator midi : ℝ,
        calculateTheta key circleNumerator circleDenominator midi =
          2 * Real.pi * (midi + key - 72) * circleNumerator / circleDenominator) ∧
    calculateTheta 0 1 12 72 = 0 ∧
    calculateTheta 0 1 12 84 = 2 * Real.pi := by
  refine ⟨fun _ _ _ _ => rfl, ?_, ?_⟩
  · unfold calculateTheta
    norm_num
  · unfold calculateTheta
    norm_num

/-- C7 counterexample: at event time 0, duration 2, appearing lead −1 and
current time 1 (exactly the sounding midpoint `0 + 0.5 · 2`), the inward
view-offset is 0 and the outward view-offset is 1; 0 and 1 do not have
opposite signs (their product is not negative), refuting the claimed sign
symmetry at the midpoint. -/
theorem view_offset_midpoint_not_opposite :
    calculateInwardViewOffset 1 0 2 = 0 ∧
    calculateOutwardViewOffset 1 (-1) 0 2 = 1 ∧
    ¬ (calculateInwardViewOffset 1 0 2 * calculateOutwardViewOffset 1 (-1) 0 2 < 0) := by
  refine ⟨?_, ?_, ?_⟩ <;> norm_num [calculateInwardViewOffset, calculateOutwardViewOffset]

/-- C7 amended: when the current time equals the sounding midpoint
`eventTime + 0.5 · duration`, the inward view-offset is exactly 0 and the
outward view-offset equals the negated appearing lead — so the two are
negatives of each other precisely when the appearing lead is 0, and have
no opposite-sign relationship in general. -/
theorem view_offset_midpoint_values (currentTime time duration appearingTime : ℚ)
    (h : currentTime = time + (1 / 2) * duration) :
    calculateInwardViewOffset currentTime time duration = 0 ∧
    calculateOutwardViewOffset currentTime appearingTime time duration = -appearingTime := by
  subst h
  constructor
  · unfold calculateInwardViewOffset; ring
  · unfold calculateOutwardViewOffset; ring

/-- Witness for the amended C7 at the counterexample's input. -/
theorem view_offset_midpoint_values_witness :
    calculateInwardViewOffset 1 0 2 = 0 ∧
    calculateOutwardViewOffset 1 (-1) 0 2 = -(-1) :=
  view_offset_midpoint_values 1 0 2 (-1) (by norm_num)

/-- C8: for the single note {time 2, duration 1/2}: after a refresh from
reset at current time 9/4, index 0 lies in the sounding slice
`[released, attacked)` and the render guard `9/4 − 2 < 1/2` holds, so the
sounding loop issues exactly the draw call for index 0; after a further
refresh at time 3, both phase slices are empty and no draw call is
issued for the note in either phase. -/
theorem single_note_draw_scenario (appearingTime : ℚ) :
    ((updateNoteOffsets [⟨2, 1 / 2⟩] resetOffsets (9 / 4) appearingTime).released = 0 ∧
     (updateNoteOffsets [⟨2, 1 / 2⟩] resetOffsets (9 / 4) appearingTime).attacked = 1) ∧
    noteDrawGuard [⟨2, 1 / 2⟩] (9 / 4) 0 = true ∧
    soundingNoteDrawIndices [⟨2, 1 / 2⟩]
      (updateNoteOffsets [⟨2, 1 / 2⟩] resetOffsets (9 / 4) appearingTime) (9 / 4) = [0] ∧
    soundingNoteDrawIndices [⟨2, 1 / 2⟩]
      (updateNoteOffsets [⟨2, 1 / 2⟩]
        (updateNoteOffsets [⟨2, 1 / 2⟩] resetOffsets (9 / 4) appearingTime) 3 appearingTime)
      3 = [] ∧
    appearingNoteDrawIndices [⟨2, 1 / 2⟩]
      (updateNoteOffsets [⟨2, 1 / 2⟩]
        (updateNoteOffsets [⟨2, 1 / 2⟩] resetOffsets (9 / 4) appearingTime) 3 appearingTime)
      3 = [] := by
  refine ⟨⟨?_, ?_⟩, ?_, ?_, ?_, ?_⟩ <;>
    norm_num [updateNoteOffsets, updateOffsetsWith, advanceFrom, scanFrom, resetOffsets,
      soundingNoteDrawIndices, appearingNoteDrawIndices, noteDrawGuard]

/-! ### The Score constructor -/

theorem eventLe_iff (a b : Event) :
    eventLe a b = true ↔ a.time < b.time ∨ (a.time = b.time ∧ b.duration ≤ a.duration) := by
  unfold eventLe
  by_cases h : a.time = b.time
  · simp [h]
  · simp [h]

theorem eventLe_trans (a b c : Event) (hab : eventLe a b) (hbc : eventLe b c) :
    eventLe a c := by
  rw [eventLe_iff] at hab hbc ⊢
  rcases hab with h1 | ⟨h1, h1d⟩ <;> rcases hbc with h2 | ⟨h2, h2d⟩
  · exact Or.inl (lt_trans h1 h2)
  · exact Or.inl (by rw [← h2]; exact h1)
  · exact Or.inl (by rw [h1]; exact h2)
  · exact Or.inr ⟨h1.trans h2, le_trans h2d h1d⟩

theorem eventLe_total (a b : Event) : eventLe a b || eventLe b a := by
  rw [Bool.or_eq_true, eventLe_iff, eventLe_iff]
  rcases lt_trichotomy a.time b.time with h | h | h
  · exact Or.inl (Or.inl h)
  · rcases le_total b.duration a.duration with hd | hd
    · exact Or.inl (Or.inr ⟨h, hd⟩)
    · exact Or.inr (Or.inr ⟨h.symm, hd⟩)
  · exact Or.inr (Or.inl h)

/-- C9: after the `Score` constructor, both streams are sorted ascending
by time with ties broken by descending duration, and every percussion
event's duration is the fixed value 0.1 — the duration normalisation
happens before the sort, so both facts hold simultaneously. -/
theorem makeScore_sorted_percussion_duration (tracks : List MidiTrack) :
    EventSorted (makeScore tracks).notes ∧
    EventSorted (makeScore tracks).percussions ∧
    ∀ e ∈ (makeScore tracks).percussions, e.duration = 1 / 10 := by
  refine ⟨?_, ?_, ?_⟩
  · exact List.Pairwise.imp (fun ha => (eventLe_iff _ _).mp ha)
      (List.sorted_mergeSort eventLe_trans eventLe_total _)
  · exact List.Pairwise.imp (fun ha => (eventLe_iff _ _).mp ha)
      (List.sorted_mergeSort eventLe_trans eventLe_total _)
  · intro e he
    have he' : e ∈ ((tracks.map normalizeTrack).filter (fun t => t.percussion)).flatMap
        MidiTrack.notes := by
      simpa [makeScore] using he
    rw [List.mem_flatMap] at he'
    obtain ⟨t, ht, het⟩ := he'
    rw [List.mem_filter] at ht
    obtain ⟨htm, htp⟩ := ht
    rw [List.mem_map] at htm
    obtain ⟨t₀, ht₀, rfl⟩ := htm
    by_cases hp : t₀.percussion
    · unfold normalizeTrack at het
      rw [if_pos hp] at het
      dsimp only at het
      rw [List.mem_map] at het
      obtain ⟨n, hn, rfl⟩ := het
      rfl
    · unfold normalizeTrack at htp
      rw [if_neg hp] at htp
      exact absurd htp hp

/-! ### binarySearch -/

/-- The loop result stays inside `[le, gt)` whenever `le < gt`. -/
theorem binarySearchLoop_bounds {α : Type} (array : List α) (dflt : α) (value : ℚ)
    (key : α → ℚ) (le gt : Nat) (h : le < gt) :
    le ≤ binarySearchLoop array dflt value key le gt ∧
      binarySearchLoop array dflt value key le gt < gt := by
  rw [binarySearchLoop]
  split
  · rename_i h1
    split
    · rename_i h2
      have ih := binarySearchLoop_bounds array dflt value key (le + (gt - le) / 2) gt (by omega)
      omega
    · rename_i h2
      have ih := binarySearchLoop_bounds array dflt value key le (le + (gt - le) / 2) (by omega)
      omega
  · omega
termination_by gt - le
decreasing_by all_goals omega

/-- The loop invariant: the key at `le` is `≤ value` and the key at `gt`
(when in range) exceeds `value`; the result then points at a key
`≤ value` whose successor's key (when in range) exceeds `value`. -/
theorem binarySearchLoop_spec {α : Type} (array : List α) (dflt : α) (value : ℚ)
    (key : α → ℚ) (le gt : Nat) (h : le < gt) (hgt : gt ≤ array.length)
    (hle : key (array.getD le dflt) ≤ value)
    (hub : gt < array.length → value < key (array.getD gt dflt)) :
    key (array.getD (binarySearchLoop array dflt value key le gt) dflt) ≤ value ∧
    (binarySearchLoop array dflt value key le gt + 1 < array.length →
      value < key (array.getD (binarySearchLoop array dflt value key le gt + 1) dflt)) := by
  rw [binarySearchLoop]
  split
  · rename_i h1
    split
    · rename_i h2
      exact binarySearchLoop_spec array dflt value key (le + (gt - le) / 2) gt
        (by omega) hgt h2 hub
    · rename_i h2
      exact binarySearchLoop_spec array dflt value key le (le + (gt - le) / 2)
        (by omega) (by omega) hle (fun _ => lt_of_not_le h2)
  · rename_i h1
    refine ⟨hle, ?_⟩
    intro hlt
    have hgt' : gt = le + 1 := by omega
    rw [← hgt']
    exact hub (by omega)
termination_by gt - le
decreasing_by all_goals omega

/-- When every key exceeds the searched value, the loop never moves the
lower bound away from 0. -/
theorem binarySearchLoop_none {α : Type} (array : List α) (dflt : α) (value : ℚ)
    (key : α → ℚ) (gt : Nat) (hgt : gt ≤ array.length)
    (hall : ∀ j, j < array.length → value < key (array.getD j dflt)) :
    binarySearchLoop array dflt value key 0 gt = 0 := by
  rw [binarySearchLoop]
  split
  · rename_i h1
    split
    · rename_i h2
      exact absurd h2 (not_le.mpr (hall _ (by omega)))
    · exact binarySearchLoop_none array dflt value key _ (by omega) hall
  · rfl
termination_by gt
decreasing_by all_goals omega

/-- C10: for a stream whose keys are sorted non-decreasing,
`binarySearch` returns an index within `[0, max 0 (length − 1)]`; when
the array is non-empty and the first key is `≤ value` it returns the
greatest index whose key is `≤ value`; when the array is empty or all
keys exceed `value` it returns 0 — in every case a valid position of a
non-empty array, as `ticksToFixedMeasures` assumes when indexing the
time-signature table without a bounds check. -/
theorem binarySearch_spec {α : Type} (array : List α) (dflt : α) (value : ℚ)
    (key : α → ℚ) (hsorted : array.Pairwise (fun x y => key x ≤ key y)) :
    (binarySearch array dflt value key ≤ max 0 (array.length - 1)) ∧
    (0 < array.length → key (array.getD 0 dflt) ≤ value →
      binarySearch array dflt value key < array.length ∧
      key (array.getD (binarySearch array dflt value key) dflt) ≤ value ∧
      ∀ j, j < array.length → key (array.getD j dflt) ≤ value →
        j ≤ binarySearch array dflt value key) ∧
    ((array = [] ∨ ∀ j, j < array.length → value < key (array.getD j dflt)) →
      binarySearch array dflt value key = 0) := by
  have hsort' : ∀ i j, i ≤ j → j < array.length →
      key (array.getD i dflt) ≤ key (array.getD j dflt) := by
    intro i j hij hj
    rcases Nat.eq_or_lt_of_le hij with rfl | hlt
    · exact le_refl _
    · rw [List.getD_eq_getElem array dflt (by omega), List.getD_eq_getElem array dflt hj]
      exact List.pairwise_iff_getElem.mp hsorted i j (by omega) hj hlt
  refine ⟨?_, ?_, ?_⟩
  · rcases Nat.eq_zero_or_pos array.length with h0 | h0
    · unfold binarySearch
      rw [h0, binarySearchLoop]
      simp
    · have := binarySearchLoop_bounds array dflt value key 0 array.length h0
      unfold binarySearch
      omega
  · intro h0 hfirst
    have hb := binarySearchLoop_bounds array dflt value key 0 array.length h0
    have hs := binarySearchLoop_spec array dflt value key 0 array.length h0
      (Nat.le_refl _) hfirst (fun hc => absurd hc (lt_irrefl _))
    unfold binarySearch
    refine ⟨hb.2, hs.1, ?_⟩
    intro j hj hkj
    by_contra hcon
    have hj1 : binarySearchLoop array dflt value key 0 array.length + 1 ≤ j := by omega
    have := lt_of_lt_of_le (hs.2 (by omega)) (hsort' _ j hj1 hj)
    exact absurd hkj (not_le.mpr this)
  · rintro (rfl | hall)
    · unfold binarySearch
      rw [binarySearchLoop]
      norm_num
    · exact binarySearchLoop_none array dflt value key array.length (Nat.le_refl _) hall

/-- Witness for C10 on a concrete sorted array. -/
theorem binarySearch_spec_witness :
    (binarySearch [(1 : ℚ), 2, 2, 5] 0 3 id ≤ max 0 (([(1 : ℚ), 2, 2, 5]).length - 1)) ∧
    (0 < ([(1 : ℚ), 2, 2, 5]).length → id (([(1 : ℚ), 2, 2, 5]).getD 0 0) ≤ 3 →
      binarySearch [(1 : ℚ), 2, 2, 5] 0 3 id < ([(1 : ℚ), 2, 2, 5]).length ∧
      id (([(1 : ℚ), 2, 2, 5]).getD (binarySearch [(1 : ℚ), 2, 2, 5] 0 3 id) 0) ≤ 3 ∧
      ∀ j, j < ([(1 : ℚ), 2, 2, 5]).length → id (([(1 : ℚ), 2, 2, 5]).getD j 0) ≤ 3 →
        j ≤ binarySearch [(1 : ℚ), 2, 2, 5] 0 3 id) ∧
    (([(1 : ℚ), 2, 2, 5] = ([] : List ℚ)) ∨
        (∀ j, j < ([(1 : ℚ), 2, 2, 5]).length → (3 : ℚ) < id (([(1 : ℚ), 2, 2, 5]).getD j 0)) →
      binarySearch [(1 : ℚ), 2, 2, 5] 0 3 id = 0) :=
  binarySearch_spec [(1 : ℚ), 2, 2, 5] 0 3 id
    (by norm_num [List.pairwise_cons])

end MelodyPattern
